import Mathlib

/-!
Shallow embedding of the dsbot client library (a discord.py-derived chat
client core): permission resolution, channel overwrite storage, bulk
message deletion, purge, message construction and field patching,
offline-member requests, and the wait-for-event listener registry.

Each definition is a transcription of the corresponding Python function in
`src/discord/`; integers are modelled as `Nat` bitmasks (Python ints are
arbitrary precision and all permission values are nonnegative), fallible
operations return `Except`, and the HTTP / gateway side effects are
reified as lists of request values.
-/

namespace DSBot

/-! ### Permissions model

Modelled from the spec: the `Permissions` class (`discord/permissions.py`)
is not under `src/`; only its callers are.  The spec describes it as a
permission bitmask with an administrator bit, a read-message bit, a
send-message bit with dependent bits (text-to-speech send,
mention-everyone, embed-links, attach-files), a channel-scoped subset
(`all_channel`), a voice-only subset (`voice`), a full set (`all`), and
the overwrite combination rule `(base AND NOT deny) OR allow`
(`handle_overwrite`).  Concrete bit positions below follow the wire
layout the spec's named permissions imply; the proofs only depend on the
named bits and on the subset relations between the masks. -/

def createInstantInviteBit : Nat := 0
def kickMembersBit : Nat := 1
def banMembersBit : Nat := 2
def administratorBit : Nat := 3
def manageChannelsBit : Nat := 4
def manageGuildBit : Nat := 5
def readMessagesBit : Nat := 10
def sendMessagesBit : Nat := 11
def sendTtsMessagesBit : Nat := 12
def manageMessagesBit : Nat := 13
def embedLinksBit : Nat := 14
def attachFilesBit : Nat := 15
def readMessageHistoryBit : Nat := 16
def mentionEveryoneBit : Nat := 17
def externalEmojisBit : Nat := 18
def connectBit : Nat := 20
def speakBit : Nat := 21
def muteMembersBit : Nat := 22
def deafenMembersBit : Nat := 23
def moveMembersBit : Nat := 24
def useVoiceActivationBit : Nat := 25
def changeNicknameBit : Nat := 26
def manageNicknamesBit : Nat := 27
def manageRolesBit : Nat := 28
def manageWebhooksBit : Nat := 29
def manageEmojisBit : Nat := 30

def maskOfBits (bits : List Nat) : Nat :=
  bits.foldl (fun acc b => acc ||| (1 <<< b)) 0

/-- Every permission bit the model defines (`Permissions.all()`). -/
def allPerms : Nat :=
  maskOfBits [0, 1, 2, 3, 4, 5, 10, 11, 12, 13, 14, 15, 16, 17, 18,
              20, 21, 22, 23, 24, 25, 26, 27, 28, 29, 30]

/-- The channel-scoped permission bits (`Permissions.all_channel()`):
everything except the guild-wide bits (kick, ban, administrator,
manage-guild, nickname management, emoji management). -/
def allChannelPerms : Nat :=
  maskOfBits [0, 4, 10, 11, 12, 13, 14, 15, 16, 17, 18,
              20, 21, 22, 23, 24, 25, 28, 29]

/-- The voice-only permission bits (`Permissions.voice()`). -/
def voicePerms : Nat :=
  maskOfBits [20, 21, 22, 23, 24, 25]

/-- Python `value & ~mask` on nonnegative ints: clear from `value` every
bit set in `mask`.  Written as `value ^^^ (value &&& mask)`, which agrees
with the bitwise difference bit for bit. -/
def bitClear (value mask : Nat) : Nat :=
  value ^^^ (value &&& mask)

/-- `Permissions.handle_overwrite`: `value = (value & ~deny) | allow`. -/
def handleOverwrite (value allow deny : Nat) : Nat :=
  (bitClear value deny) ||| allow

/-! ### Guild channel data model (`src/discord/abc.py`) -/

inductive OwType where
  | role
  | member
deriving DecidableEq

/-- `_Overwrites = namedtuple('_Overwrites', 'id allow deny type')`. -/
structure Overwrite where
  id : Nat
  allow : Nat
  deny : Nat
  type : OwType
deriving DecidableEq

instance : Inhabited Overwrite := ⟨⟨0, 0, 0, OwType.role⟩⟩

structure RoleS where
  id : Nat
  permissions : Nat
deriving DecidableEq

structure MemberS where
  id : Nat
  roles : List RoleS
deriving DecidableEq

structure GuildS where
  id : Nat
  ownerId : Nat
  defaultRole : RoleS
deriving DecidableEq

structure GuildChannelS where
  id : Nat
  guild : GuildS
  overwrites : List Overwrite
  isTextChannel : Bool
deriving DecidableEq

/-- `GuildChannel.is_default`: `self.guild.id == self.id`. -/
def isDefault (ch : GuildChannelS) : Bool :=
  ch.guild.id == ch.id

/-- Transcription of `GuildChannel.permissions_for` (abc.py lines
291-346): owner bypass, everyone-role base OR member roles, administrator
bypass, role-overwrite accumulation, member overwrite (first match,
`break`), default-channel read forcing, send-message dependent clearing,
read-message clearing of all channel bits, voice-bit clearing for text
channels. -/
def permissions_for (ch : GuildChannelS) (m : MemberS) : Nat :=
  if m.id = ch.guild.ownerId then allPerms
  else
    let base := m.roles.foldl (fun acc r => acc ||| r.permissions)
      ch.guild.defaultRole.permissions
    if Nat.testBit base administratorBit then allPerms
    else
      let memberRoleIds := m.roles.map (fun r => r.id)
      let acc := ch.overwrites.foldl
        (fun (p : Nat × Nat) ow =>
          if ow.type = OwType.role ∧ memberRoleIds.contains ow.id then
            (p.1 ||| ow.deny, p.2 ||| ow.allow)
          else p)
        (0, 0)
      let base1 := handleOverwrite base acc.2 acc.1
      let base2 :=
        match ch.overwrites.find?
            (fun ow => ow.type == OwType.member && ow.id == m.id) with
        | some ow => handleOverwrite base1 ow.allow ow.deny
        | none => base1
      let base3 := if isDefault ch then base2 ||| (1 <<< readMessagesBit) else base2
      let base4 :=
        if Nat.testBit base3 sendMessagesBit then base3
        else
          bitClear (bitClear (bitClear (bitClear base3
            (1 <<< sendTtsMessagesBit))
            (1 <<< mentionEveryoneBit))
            (1 <<< embedLinksBit))
            (1 <<< attachFilesBit)
      let base5 :=
        if Nat.testBit base4 readMessagesBit then base4
        else bitClear base4 allChannelPerms
      if ch.isTextChannel then bitClear base5 voicePerms else base5

/-- The combined role permission set: the everyone role's base bitmask
OR'd with the bitmask of every role the member holds (the `base` value of
`permissions_for` before any overwrite is applied). -/
def combinedBase (ch : GuildChannelS) (m : MemberS) : Nat :=
  m.roles.foldl (fun acc r => acc ||| r.permissions)
    ch.guild.defaultRole.permissions

/-! ### The claim-side decomposition of permission resolution

Separate stage functions phrased after the spec's steps 5-11, to be
compared with the monolithic `permissions_for` transcription. -/

/-- Accumulated `(denies, allows)` over every role overwrite whose target
is a role the member holds; no short-circuit, all matching roles
contribute. -/
def roleOverwriteAccum (ch : GuildChannelS) (m : MemberS) : Nat × Nat :=
  ch.overwrites.foldl
    (fun (p : Nat × Nat) ow =>
      if ow.type = OwType.role ∧ (m.roles.map (fun r => r.id)).contains ow.id then
        (p.1 ||| ow.deny, p.2 ||| ow.allow)
      else p)
    (0, 0)

/-- Stage 5-6 of the spec: fold every matching role overwrite into the
allow/deny accumulators and combine once as `(base AND NOT denies) OR
allows`. -/
def applyRoleOverwrites (ch : GuildChannelS) (m : MemberS) (base : Nat) : Nat :=
  handleOverwrite base (roleOverwriteAccum ch m).2 (roleOverwriteAccum ch m).1

/-- The member-specific overwrite targeting the member, if one exists
(first match in stored order). -/
def findMemberOverwrite (ch : GuildChannelS) (m : MemberS) : Option Overwrite :=
  ch.overwrites.find? (fun ow => ow.type == OwType.member && ow.id == m.id)

/-- Stage 7 of the spec: apply the single member-specific overwrite, same
allow/deny combination rule, after the role combination. -/
def applyMemberOverwrite (ch : GuildChannelS) (m : MemberS) (base : Nat) : Nat :=
  match findMemberOverwrite ch m with
  | some ow => handleOverwrite base ow.allow ow.deny
  | none => base

/-- Stages 8-11 of the spec: default-channel read forcing, dependent-bit
clearing when send-message is off, channel-bit clearing when read-message
is off, voice-bit clearing on text channels. -/
def postProcess (ch : GuildChannelS) (base : Nat) : Nat :=
  let b1 := if isDefault ch then base ||| (1 <<< readMessagesBit) else base
  let b2 :=
    if Nat.testBit b1 sendMessagesBit then b1
    else
      bitClear (bitClear (bitClear (bitClear b1
        (1 <<< sendTtsMessagesBit))
        (1 <<< mentionEveryoneBit))
        (1 <<< embedLinksBit))
        (1 <<< attachFilesBit)
  let b3 :=
    if Nat.testBit b2 readMessagesBit then b2
    else bitClear b2 allChannelPerms
  if ch.isTextChannel then bitClear b3 voicePerms else b3

/-! ### `GuildChannel._fill_overwrites` (abc.py lines 140-163)

The payload entries carry the same four fields as the stored
`_Overwrites` tuple (`id` is popped from the dict and re-passed), so the
payload type is `Overwrite` as well. -/

/-- The loop body of `_fill_overwrites`: walks the payload with the
running index, appends every entry, and records in `everyone_index` the
index of the last non-member overwrite whose id equals the guild id
(member-typed entries `continue` before the id comparison). -/
def fillAux (gid : Nat) : List Overwrite → Nat → Nat → (List Overwrite × Nat)
  | [], _, ev => ([], ev)
  | od :: rest, i, ev =>
    let ev1 := if od.type = OwType.member then ev
               else if od.id = gid then i else ev
    let r := fillAux gid rest (i + 1) ev1
    (od :: r.1, r.2)

/-- The final swap `tmp[everyone_index], tmp[0] = tmp[0], tmp[everyone_index]`. -/
def swapToFront (l : List Overwrite) (i : Nat) : List Overwrite :=
  (l.set i (l.getD 0 default)).set 0 (l.getD i default)

/-- `GuildChannel._fill_overwrites`: build the stored overwrite list from
the payload, then swap the everyone overwrite to the front (the swap is
guarded by `if tmp:`). -/
def fillOverwrites (gid : Nat) (data : List Overwrite) : List Overwrite :=
  let r := fillAux gid data 0 0
  if r.1.isEmpty then r.1 else swapToFront r.1 r.2

/-! ### Bulk deletion (`MessageChannel.delete_messages` and `purge`) -/

structure MsgS where
  id : Nat
deriving DecidableEq

instance : Inhabited MsgS := ⟨⟨0⟩⟩

/-- The HTTP requests the message-deletion paths can issue:
`http.delete_message` (single delete, used by `Message.delete`) and
`http.delete_messages` (bulk delete). -/
inductive HttpCall where
  | deleteMessage (channelId : Nat) (messageId : Nat)
  | bulkDelete (channelId : Nat) (messageIds : List Nat)
deriving DecidableEq

/-- The error values raised by the transcribed code paths. -/
inductive PyError where
  | clientException
  | invalidArgument
  | nameError
deriving DecidableEq

/-- `MessageChannel.delete_messages` (abc.py lines 522-554): materialize
the iterable, raise `ClientException` when the length is over 100 or
under 2, otherwise issue exactly one bulk-delete request with the
message ids. -/
def delete_messages (channelId : Nat) (messages : List MsgS) :
    Except PyError (List HttpCall) :=
  if messages.length > 100 ∨ messages.length < 2 then
    Except.error PyError.clientException
  else
    Except.ok [HttpCall.bulkDelete channelId (messages.map (fun m => m.id))]

/-- Python `ret[-n:]`: the last `n` elements (all of them when `n`
exceeds the length). -/
def takeRight (l : List MsgS) (n : Nat) : List MsgS :=
  l.drop (l.length - n)

/-- The `while True` loop of `MessageChannel.purge` (abc.py lines
699-723) over the history sequence, carrying the accumulated matches
`ret`, the pending-match counter `count`, and the issued delete requests.
On each fetched message: if `count == 100`, flush the last 100 matches by
bulk delete and reset the counter; then append the message to `ret` when
the predicate holds.  On history exhaustion (`NoMoreMessages`): flush the
last `count` matches by bulk delete when `count >= 2`, delete
`ret[-1]` singly when `count == 1`, and return `ret`.  (Both flush sites
call `delete_messages` with between 2 and 100 messages, so its range
check never raises; the requests are recorded directly.) -/
def purgeAux (cid : Nat) (check : MsgS → Bool) :
    List MsgS → List MsgS → Nat → List HttpCall → (List MsgS × List HttpCall)
  | [], ret, count, calls =>
    if count ≥ 2 then
      (ret, calls ++ [HttpCall.bulkDelete cid ((takeRight ret count).map MsgS.id)])
    else if count = 1 then
      (ret, calls ++ [HttpCall.deleteMessage cid (ret.getLastD default).id])
    else (ret, calls)
  | msg :: rest, ret, count, calls =>
    let st :=
      if count = 100 then
        (0, calls ++ [HttpCall.bulkDelete cid ((takeRight ret 100).map MsgS.id)])
      else (count, calls)
    if check msg then purgeAux cid check rest (ret ++ [msg]) (st.1 + 1) st.2
    else purgeAux cid check rest ret st.1 st.2

/-- `MessageChannel.purge` applied to the message sequence the history
iterator yields, returning the accumulated matches and the delete
requests issued. -/
def purge (cid : Nat) (check : MsgS → Bool) (history : List MsgS) :
    List MsgS × List HttpCall :=
  purgeAux cid check history [] 0 []

/-- The purge loop as the claim words it: accumulate matches, flush a
bulk delete as soon as 100 accumulated matches are pending, and at
history exhaustion flush the remainder by bulk delete when it holds two
or more messages, by a single delete when it holds exactly one, and not
at all when it holds zero. -/
def purgeSpecAux (cid : Nat) (check : MsgS → Bool) :
    List MsgS → List MsgS → Nat → List HttpCall → (List MsgS × List HttpCall)
  | [], ret, pending, calls =>
    if pending ≥ 2 then
      (ret, calls ++ [HttpCall.bulkDelete cid ((takeRight ret pending).map MsgS.id)])
    else if pending = 1 then
      (ret, calls ++ [HttpCall.deleteMessage cid (ret.getLastD default).id])
    else (ret, calls)
  | msg :: rest, ret, pending, calls =>
    if check msg then
      if pending + 1 = 100 then
        purgeSpecAux cid check rest (ret ++ [msg]) 0
          (calls ++ [HttpCall.bulkDelete cid ((takeRight (ret ++ [msg]) 100).map MsgS.id)])
      else purgeSpecAux cid check rest (ret ++ [msg]) (pending + 1) calls
    else purgeSpecAux cid check rest ret pending calls

/-- The claim-side purge behaviour started from an empty accumulator. -/
def purgeSpec (cid : Nat) (check : MsgS → Bool) (history : List MsgS) :
    List MsgS × List HttpCall :=
  purgeSpecAux cid check history [] 0 []

/-- The message ids a delete request removes. -/
def callIds : HttpCall → List Nat
  | HttpCall.deleteMessage _ mid => [mid]
  | HttpCall.bulkDelete _ mids => mids

/-- All message ids removed by a sequence of delete requests. -/
def deletedIds (calls : List HttpCall) : List Nat :=
  (calls.map callIds).flatten

/-- A delete request purge may legitimately issue on channel `cid`: a
single delete, or a bulk delete of 2 to 100 messages. -/
def purgeCallOk (cid : Nat) : HttpCall → Prop
  | HttpCall.deleteMessage ch _ => ch = cid
  | HttpCall.bulkDelete ch mids => ch = cid ∧ 2 ≤ mids.length ∧ mids.length ≤ 100

instance (cid : Nat) (c : HttpCall) : Decidable (purgeCallOk cid c) := by
  cases c <;> simp [purgeCallOk] <;> infer_instance

/-! ### Message construction and field patching (`src/discord/message.py`) -/

structure DUser where
  id : Nat
deriving DecidableEq

/-- The slice of a guild the message handlers read: `get_member` (by id)
and the role list (`utils.get(self.guild.roles, id=...)`). -/
structure GuildM where
  id : Nat
  memberIds : List Nat
  roleIds : List Nat
deriving DecidableEq

/-- `Guild.get_member`: id-keyed lookup of a member. -/
def getMember (g : GuildM) (uid : Nat) : Option DUser :=
  if g.memberIds.contains uid then some ⟨uid⟩ else none

inductive MessageTypeM where
  | default
  | call
deriving DecidableEq

/-- The `call` payload: participant user ids plus the ended timestamp. -/
structure CallData where
  participants : List Nat
  endedTimestamp : Option Nat
deriving DecidableEq

/-- `CallMessage` with its participants resolved to user objects. -/
structure CallMessageM where
  participants : List DUser
  endedTimestamp : Option Nat
deriving DecidableEq

structure MessageM where
  id : Nat
  channel : Nat
  guild : Option GuildM
  type : MessageTypeM
  author : DUser
  mentions : List DUser
  roleMentions : List Nat
  call : Option CallMessageM
  editedTimestamp : Option Nat
  pinned : Bool
  mentionEveryone : Bool
  tts : Bool
  content : String
  attachments : List Nat
  embeds : List Nat
  nonce : Option Nat
  csRawMentions : Option (List Nat)
  csRawChannelMentions : Option (List Nat)
  csRawRoleMentions : Option (List Nat)
  csChannelMentions : Option (List Nat)
  csCleanContent : Option String
  csSystemContent : Option String
deriving DecidableEq

instance : Inhabited MessageM :=
  ⟨⟨0, 0, none, MessageTypeM.default, ⟨0⟩, [], [], none, none, false, false,
    false, "", [], [], none, none, none, none, none, none, none⟩⟩

/-- An update payload: a field is `none` when its key is absent from the
dict (so `_try_patch` leaves the attribute alone).  `editedTimestamp` and
`nonce` values may themselves be null, hence the nested `Option`; `call`
likewise may be present-and-null. -/
structure UpdateData where
  mentions : Option (List DUser)
  mentionRoles : Option (List Nat)
  call : Option (Option CallData)
  editedTimestamp : Option (Option Nat)
  author : Option DUser
  pinned : Option Bool
  mentionEveryone : Option Bool
  tts : Option Bool
  content : Option String
  attachments : Option (List Nat)
  embeds : Option (List Nat)
  nonce : Option (Option Nat)
deriving DecidableEq

/-- The slice of the connection state `_update` reads:
`state.try_insert_user`, which deterministically upserts a user payload
into the user cache and returns the user object. -/
structure StateM where
  tryInsertUser : DUser → DUser

/-- `Message._handle_mentions`: reset the list; outside a guild, insert
every mention payload through the user cache; inside a guild, keep the
guild members the mentioned ids resolve to. -/
def handleMentions (st : StateM) (m : MessageM) (ms : List DUser) : MessageM :=
  match m.guild with
  | none => { m with mentions := ms.map st.tryInsertUser }
  | some g => { m with mentions := ms.filterMap (fun u => getMember g u.id) }

/-- `Message._handle_mention_roles`: reset the list; inside a guild keep
the ids that resolve to a guild role. -/
def handleMentionRoles (m : MessageM) (rs : List Nat) : MessageM :=
  match m.guild with
  | none => { m with roleMentions := [] }
  | some g => { m with roleMentions := rs.filter (fun rid => g.roleIds.contains rid) }

/-- `Message._handle_call`: `None` payload or a non-call message type
clears the call; otherwise each participant id resolves to the author
when it matches `self.author.id` and to a mentioned user otherwise,
unresolvable ids being dropped. -/
def handleCall (m : MessageM) (c : Option CallData) : MessageM :=
  match c with
  | none => { m with call := none }
  | some cd =>
    if m.type ≠ MessageTypeM.call then { m with call := none }
    else
      let participants := cd.participants.filterMap (fun uid =>
        if uid = m.author.id then some m.author
        else m.mentions.find? (fun u => u.id == uid))
      { m with call := some ⟨participants, cd.endedTimestamp⟩ }

/-- The tail of `Message._update` (message.py lines 143-159): the
`_try_patch` calls — each scalar field present in the payload is written,
last-write-wins, absent keys leave the attribute alone — followed by the
clearing of every cached `_cs_` slot. -/
def patchTail (st : StateM) (d : UpdateData) (m0 : MessageM) : MessageM :=
  let m := match d.editedTimestamp with
    | some v => { m0 with editedTimestamp := v }
    | none => m0
  let m := match d.author with
    | some a => { m with author := st.tryInsertUser a }
    | none => m
  let m := match d.pinned with
    | some b => { m with pinned := b }
    | none => m
  let m := match d.mentionEveryone with
    | some b => { m with mentionEveryone := b }
    | none => m
  let m := match d.tts with
    | some b => { m with tts := b }
    | none => m
  let m := match d.content with
    | some s => { m with content := s }
    | none => m
  let m := match d.attachments with
    | some a => { m with attachments := a }
    | none => m
  let m := match d.embeds with
    | some e => { m with embeds := e }
    | none => m
  let m := match d.nonce with
    | some v => { m with nonce := v }
    | none => m
  { m with csRawMentions := none, csRawChannelMentions := none,
           csRawRoleMentions := none, csChannelMentions := none,
           csCleanContent := none, csSystemContent := none }

/-- The `_handle_mentions` dispatch of `_update`: run the handler exactly
when the `mentions` key is present. -/
def mentionsStage (st : StateM) (dm : Option (List DUser)) (m : MessageM) :
    MessageM :=
  match dm with
  | some ms => handleMentions st m ms
  | none => m

/-- The `_handle_mention_roles` dispatch of `_update`. -/
def mentionRolesStage (dr : Option (List Nat)) (m : MessageM) : MessageM :=
  match dr with
  | some rs => handleMentionRoles m rs
  | none => m

/-- The `_handle_call` dispatch of `_update`. -/
def callStage (dc : Option (Option CallData)) (m : MessageM) : MessageM :=
  match dc with
  | some c => handleCall m c
  | none => m

/-- `Message._update` (message.py lines 135-159): store the channel, run
the `mentions` / `mention_roles` / `call` handlers for the keys present,
then the `_try_patch` sequence and the cached-slot clearing
(`patchTail`). -/
def msgUpdate (st : StateM) (m0 : MessageM) (channel : Nat) (d : UpdateData) :
    MessageM :=
  patchTail st d (callStage d.call (mentionRolesStage d.mentionRoles
    (mentionsStage st d.mentions { m0 with channel := channel })))

/-- The mention list `_update` leaves in place: the payload's, resolved
through the user cache or the guild member list when the `mentions` key
is present, the previous list otherwise. -/
def mentionsAfter (st : StateM) (g : Option GuildM) (dm : Option (List DUser))
    (old : List DUser) : List DUser :=
  match dm with
  | none => old
  | some ms =>
    match g with
    | none => ms.map st.tryInsertUser
    | some gg => ms.filterMap (fun u => getMember gg u.id)

/-- The role-mention list `_update` leaves in place. -/
def roleMentionsAfter (g : Option GuildM) (dr : Option (List Nat))
    (old : List Nat) : List Nat :=
  match dr with
  | none => old
  | some rs =>
    match g with
    | none => []
    | some gg => rs.filter (fun rid => gg.roleIds.contains rid)

/-- The names bound in the scope of `Message.__init__` (message.py line
120): the parameters `self`, `state`, `channel`, `data` and nothing
else — in particular not `kwargs`. -/
def messageInitScope : List String := ["self", "state", "channel", "data"]

/-- Transcription of `Message.__init__` (message.py lines 120-125): after
`self._state = state`, the body evaluates `kwargs.pop('reactions')`, and
resolving the name `kwargs` in the constructor scope fails, raising
`NameError` before any message field is populated from the payload. -/
def messageInit (st : StateM) (channel : Nat) (d : UpdateData) :
    Except PyError MessageM :=
  if messageInitScope.contains "kwargs" then
    Except.ok (msgUpdate st default channel d)
  else
    Except.error PyError.nameError

/-! ### `Client.request_offline_members` (client.py lines 294-321) -/

structure GuildFlags where
  large : Bool
  unavailable : Bool
deriving DecidableEq

/-- The gateway request the forwarding path issues
(`self.connection.request_offline_members(guilds)`). -/
inductive ConnCall where
  | requestOfflineMembers (guilds : List GuildFlags)
deriving DecidableEq

/-- `Client.request_offline_members`: raise `InvalidArgument` when any
passed guild is not large or is unavailable
(`any(not g.large or g.unavailable for g in guilds)`); otherwise forward
one request to the connection. -/
def request_offline_members (guilds : List GuildFlags) :
    Except PyError (List ConnCall) :=
  if guilds.any (fun g => !g.large || g.unavailable) then
    Except.error PyError.invalidArgument
  else
    Except.ok [ConnCall.requestOfflineMembers guilds]

/-! ### Wait-for-event listener registry (`client.py` lines 183-205 and
664-687) -/

inductive WaitForTypeM where
  | message
  | reaction
deriving DecidableEq

/-- One `(condition, future, event_type)` entry of `self._listeners`.
The future is represented by what `handle_message` reads of it:
`future.cancelled()`.  The condition may raise, hence `Except`. -/
structure ListenerEntry where
  cond : MsgS → Except Unit Bool
  futureCancelled : Bool
  type : WaitForTypeM

/-- Whether one pass of `Client.handle_message` over `msg` removes the
entry: non-message entries are skipped (`continue`), cancelled futures
are collected for removal, a raising condition removes the entry with
`set_exception`, and a satisfied condition removes it with
`set_result`. -/
def listenerRemoves (e : ListenerEntry) (msg : MsgS) : Bool :=
  e.type == WaitForTypeM.message &&
    (e.futureCancelled ||
      match e.cond msg with
      | Except.error _ => true
      | Except.ok b => b)

/-- `Client.handle_message` (client.py lines 183-205): walk the enumerated
listener list collecting the indices to drop, then delete them from the
list in reversed order. -/
def handle_message (l : List ListenerEntry) (msg : MsgS) : List ListenerEntry :=
  let removed := l.enum.filterMap
    (fun p => if listenerRemoves p.2 msg then some p.1 else none)
  removed.reverse.foldl (fun acc i => acc.eraseIdx i) l

/-- The possible outcomes of awaiting `asyncio.wait_for(future, timeout)`
inside `Client.wait_for_message` (client.py lines 683-687). -/
inductive AwaitOutcome where
  | value (m : MsgS)
  | excepted
  | timedOut
deriving DecidableEq

/-- The `try/except` around the await in `wait_for_message`: a completed
future returns its message, a propagated predicate exception re-raises,
and `asyncio.TimeoutError` is caught and turned into a `None` return. -/
def waitForMessageReturn : AwaitOutcome → Except Unit (Option MsgS)
  | AwaitOutcome.value m => Except.ok (some m)
  | AwaitOutcome.excepted => Except.error ()
  | AwaitOutcome.timedOut => Except.ok none

/-! ### Concrete evaluation inputs -/

def wGuild3 : GuildS := ⟨1, 99, ⟨1, 1 <<< administratorBit⟩⟩

def wCh3 : GuildChannelS := ⟨7, wGuild3, [⟨1, 0, allPerms, OwType.role⟩], true⟩

def wMem3 : MemberS := ⟨5, []⟩

def wGuild4 : GuildS := ⟨1, 99, ⟨1, maskOfBits [sendMessagesBit, speakBit]⟩⟩

def wCh4 : GuildChannelS := ⟨7, wGuild4, [], false⟩

def wMem4 : MemberS := ⟨5, []⟩

def wCh8 : GuildChannelS :=
  ⟨7, ⟨1, 99, ⟨1, maskOfBits [readMessagesBit, sendMessagesBit]⟩⟩,
   [⟨3, 1 <<< speakBit, 1 <<< sendMessagesBit, OwType.role⟩,
    ⟨5, 1 <<< sendMessagesBit, 1 <<< speakBit, OwType.member⟩], true⟩

def wMem8 : MemberS := ⟨5, [⟨3, 0⟩]⟩

def wOws7 : List Overwrite :=
  [⟨5, 1, 2, OwType.member⟩, ⟨9, 3, 4, OwType.role⟩, ⟨1, 7, 8, OwType.role⟩]

def wState : StateM := ⟨fun u => u⟩

def wMsg6 : MessageM :=
  { (default : MessageM) with type := MessageTypeM.call, author := ⟨1⟩ }

def wData6 : UpdateData :=
  ⟨none, none, some (some ⟨[1], none⟩), none, some ⟨2⟩, none, none, none,
   none, none, none, none⟩

def wData6a : UpdateData :=
  ⟨some [⟨3⟩], some [4], none, some (some 11), some ⟨2⟩, some true, none,
   some true, some "hi", some [6], none, some none⟩

def wHist5 : List MsgS := [⟨1⟩, ⟨2⟩, ⟨3⟩, ⟨4⟩]

def wEntryMatch : ListenerEntry :=
  ⟨fun m => Except.ok (m.id == 2), false, WaitForTypeM.message⟩

def wEntryCancelled : ListenerEntry :=
  ⟨fun _ => Except.ok false, true, WaitForTypeM.message⟩

def wEntryReaction : ListenerEntry :=
  ⟨fun _ => Except.ok true, false, WaitForTypeM.reaction⟩

def wEntryNoMatch : ListenerEntry :=
  ⟨fun m => Except.ok (m.id == 9), false, WaitForTypeM.message⟩

/-! ## Theorems -/

/-- Bit-level description of `bitClear`. -/
theorem testBit_bitClear (x y i : Nat) :
    (bitClear x y).testBit i = (x.testBit i && !(y.testBit i)) := by
  simp only [bitClear, Nat.testBit_xor, Nat.testBit_land]
  cases x.testBit i <;> cases y.testBit i <;> rfl

/-- Bit-level description of `handleOverwrite`. -/
theorem testBit_handleOverwrite (v a d i : Nat) :
    (handleOverwrite v a d).testBit i =
      ((v.testBit i && !(d.testBit i)) || a.testBit i) := by
  simp [handleOverwrite, Nat.testBit_lor, testBit_bitClear]

/-- C1: constructing a `Message` never succeeds — `Message.__init__`
evaluates the unbound name `kwargs`, so every construction at the public
interface raises `NameError` instead of returning a message object. -/
theorem messageInit_always_fails (st : StateM) (channel : Nat) (d : UpdateData) :
    messageInit st channel d = Except.error PyError.nameError := rfl

/-- C2 counterexample: a list of exactly one message does not issue a
single-delete; `delete_messages` raises `ClientException` on it. -/
theorem delete_messages_one_raises :
    delete_messages 42 [⟨1⟩] = Except.error PyError.clientException := rfl

/-- C2 (amended): `delete_messages` fails with `ClientException` and
issues no request whenever the list holds fewer than 2 or more than 100
messages — including exactly one — and issues exactly one bulk-delete
request for 2 to 100 messages. -/
theorem delete_messages_range (cid : Nat) (messages : List MsgS) :
    (messages.length < 2 ∨ messages.length > 100 →
      delete_messages cid messages = Except.error PyError.clientException)
    ∧ (2 ≤ messages.length → messages.length ≤ 100 →
      delete_messages cid messages =
        Except.ok [HttpCall.bulkDelete cid (messages.map (fun m => m.id))]) := by
  unfold delete_messages
  constructor
  · intro h
    rw [if_pos]
    omega
  · intro h1 h2
    rw [if_neg]
    omega

/-- Witness for C2 (amended): one message raises, two messages issue one
bulk request. -/
theorem delete_messages_range_witness :
    delete_messages 42 [⟨1⟩] = Except.error PyError.clientException
    ∧ delete_messages 42 [⟨1⟩, ⟨2⟩] = Except.ok [HttpCall.bulkDelete 42 [1, 2]] :=
  ⟨(delete_messages_range 42 [⟨1⟩]).1 (Or.inl (by decide)),
   (delete_messages_range 42 [⟨1⟩, ⟨2⟩]).2 (by decide) (by decide)⟩

/-- C3: whenever the combined role permission set (everyone base OR all
held roles) includes the administrator bit, `permissions_for` returns the
full permission set, regardless of channel overwrites. -/
theorem admin_resolves_full (ch : GuildChannelS) (m : MemberS)
    (h : Nat.testBit (combinedBase ch m) administratorBit = true) :
    permissions_for ch m = allPerms := by
  unfold permissions_for
  split
  · rfl
  · simp only [combinedBase] at h
    simp [h]

/-- Witness for C3: a member whose everyone role carries the
administrator bit resolves to the full set despite a deny-everything
overwrite. -/
theorem admin_resolves_full_witness :
    Nat.testBit (combinedBase wCh3 wMem3) administratorBit = true
    ∧ permissions_for wCh3 wMem3 = allPerms :=
  ⟨by decide, admin_resolves_full wCh3 wMem3 (by decide)⟩

/-- C9 counterexample: a guild that is large but unavailable is eligible
under the claim's reading (it is large), yet the code rejects the request
with `InvalidArgument`. -/
theorem request_offline_members_counterexample :
    request_offline_members [⟨true, true⟩] = Except.error PyError.invalidArgument
    ∧ ¬ ∃ g ∈ [GuildFlags.mk true true], g.large = false ∧ g.unavailable = false := by
  constructor
  · rfl
  · decide

/-- C9 (amended): `request_offline_members` rejects with
`InvalidArgument`, forwarding nothing, exactly when some passed guild is
not large or is unavailable; when every guild is large and available it
forwards one request to the connection. -/
theorem request_offline_members_rejects_iff (guilds : List GuildFlags) :
    (request_offline_members guilds = Except.error PyError.invalidArgument ↔
      ∃ g ∈ guilds, g.large = false ∨ g.unavailable = true)
    ∧ ((∀ g ∈ guilds, g.large = true ∧ g.unavailable = false) →
      request_offline_members guilds =
        Except.ok [ConnCall.requestOfflineMembers guilds]) := by
  unfold request_offline_members
  by_cases h : guilds.any (fun g => !g.large || g.unavailable)
  · rw [if_pos h]
    rw [List.any_eq_true] at h
    obtain ⟨g, hg, hcond⟩ := h
    constructor
    · constructor
      · intro _
        refine ⟨g, hg, ?_⟩
        revert hcond
        cases g.large <;> cases g.unavailable <;> simp
      · intro _
        rfl
    · intro hall
      obtain ⟨hl, hu⟩ := hall g hg
      rw [hl, hu] at hcond
      simp at hcond
  · rw [if_neg h]
    rw [List.any_eq_true] at h
    push_neg at h
    constructor
    · constructor
      · intro hcontra
        cases hcontra
      · intro ⟨g, hg, hcond⟩
        exfalso
        have := h g hg
        revert this hcond
        cases g.large <;> cases g.unavailable <;> simp
    · intro _
      rfl

/-- Witness for C9 (amended): a large available guild forwards; a small
available guild is rejected. -/
theorem request_offline_members_rejects_iff_witness :
    request_offline_members [⟨true, false⟩] =
      Except.ok [ConnCall.requestOfflineMembers [⟨true, false⟩]]
    ∧ request_offline_members [⟨false, false⟩] = Except.error PyError.invalidArgument :=
  ⟨(request_offline_members_rejects_iff [⟨true, false⟩]).2 (by decide),
   (request_offline_members_rejects_iff [⟨false, false⟩]).1.2 ⟨⟨false, false⟩, by decide, Or.inl rfl⟩⟩

/-- The loop of `_fill_overwrites` stores every payload entry, in payload
order. -/
theorem fillAux_list (gid : Nat) :
    ∀ (data : List Overwrite) (i ev : Nat), (fillAux gid data i ev).1 = data := by
  intro data
  induction data with
  | nil => intro i ev; rfl
  | cons od rest ih => intro i ev; simp [fillAux, ih]

/-- When no non-member payload entry targets the guild id,
`everyone_index` keeps its incoming value. -/
theorem fillAux_idx_none (gid : Nat) :
    ∀ (data : List Overwrite) (i ev : Nat),
      (∀ od ∈ data, od.type = OwType.member ∨ od.id ≠ gid) →
      (fillAux gid data i ev).2 = ev := by
  intro data
  induction data with
  | nil => intro i ev _; rfl
  | cons od rest ih =>
    intro i ev h
    have hod := h od (List.mem_cons_self od rest)
    have hrest : ∀ x ∈ rest, x.type = OwType.member ∨ x.id ≠ gid :=
      fun x hx => h x (List.mem_cons_of_mem od hx)
    have hev : (if od.type = OwType.member then ev
                else if od.id = gid then i else ev) = ev := by
      rcases hod with hm | hid
      · rw [if_pos hm]
      · by_cases hm : od.type = OwType.member
        · rw [if_pos hm]
        · rw [if_neg hm, if_neg hid]
    simp only [fillAux]
    rw [hev]
    exact ih (i + 1) ev hrest

/-- When some non-member payload entry targets the guild id,
`everyone_index` ends at the position (relative to the running index) of
the last such entry, which is itself a non-member overwrite with the
guild id. -/
theorem fillAux_idx_found (gid : Nat) :
    ∀ (data : List Overwrite) (i ev : Nat),
      (∃ od ∈ data, od.type ≠ OwType.member ∧ od.id = gid) →
      ∃ k, k < data.length ∧ (fillAux gid data i ev).2 = i + k
        ∧ (data.getD k default).type ≠ OwType.member
        ∧ (data.getD k default).id = gid := by
  intro data
  induction data with
  | nil =>
    intro i ev h
    obtain ⟨od, hod, _⟩ := h
    cases hod
  | cons od rest ih =>
    intro i ev h
    by_cases hrest : ∃ x ∈ rest, x.type ≠ OwType.member ∧ x.id = gid
    · obtain ⟨k, hk, heq, ht, hid⟩ := ih (i + 1)
        (if od.type = OwType.member then ev else if od.id = gid then i else ev) hrest
      refine ⟨k + 1, by simpa using hk, ?_, ?_, ?_⟩
      · simp only [fillAux]
        rw [heq]
        omega
      · simpa using ht
      · simpa using hid
    · have hod : od.type ≠ OwType.member ∧ od.id = gid := by
        obtain ⟨x, hx, hxx⟩ := h
        rcases List.mem_cons.mp hx with rfl | hx'
        · exact hxx
        · exact absurd ⟨x, hx', hxx⟩ hrest
      have hnone : ∀ x ∈ rest, x.type = OwType.member ∨ x.id ≠ gid := by
        intro x hx
        by_cases hm : x.type = OwType.member
        · exact Or.inl hm
        · refine Or.inr (fun hid => hrest ⟨x, hx, hm, hid⟩)
      have hev : (if od.type = OwType.member then ev
                  else if od.id = gid then i else ev) = i := by
        rw [if_neg hod.1, if_pos hod.2]
      refine ⟨0, by simp, ?_, by simpa using hod.1, by simpa using hod.2⟩
      simp only [fillAux]
      rw [hev, fillAux_idx_none gid rest (i + 1) i hnone]
      omega

/-- Helper: the only overwrite kind besides `member` is `role`. -/
theorem owType_ne_member (t : OwType) (h : t ≠ OwType.member) : t = OwType.role := by
  cases t
  · rfl
  · exact absurd rfl h

/-- Helper: writing index 0 of a nonempty list puts the value at the
head. -/
theorem head?_set_zero {α : Type} (u : List α) (v : α) (h : u ≠ []) :
    (u.set 0 v).head? = some v := by
  cases u with
  | nil => exact absurd rfl h
  | cons a t => rfl

/-- C7: after `_fill_overwrites`, if the payload carries an overwrite of
role kind targeting the guild id (the everyone role), the stored
overwrite list has such an overwrite at index 0, whatever the payload
order was. -/
theorem fill_overwrites_everyone_first (gid : Nat) (data : List Overwrite)
    (h : ∃ od ∈ data, od.type = OwType.role ∧ od.id = gid) :
    ∃ ow, (fillOverwrites gid data).head? = some ow
      ∧ ow.type = OwType.role ∧ ow.id = gid := by
  have h' : ∃ od ∈ data, od.type ≠ OwType.member ∧ od.id = gid := by
    obtain ⟨od, hm, ht, hid⟩ := h
    refine ⟨od, hm, ?_, hid⟩
    rw [ht]
    intro hc
    cases hc
  obtain ⟨k, hk, heq, ht, hid⟩ := fillAux_idx_found gid data 0 0 h'
  refine ⟨data.getD k default, ?_, owType_ne_member _ ht, hid⟩
  have hlist := fillAux_list gid data 0 0
  simp only [fillOverwrites, hlist]
  have hne : data ≠ [] := by
    intro hnil
    rw [hnil] at hk
    cases hk
  rw [if_neg (by simpa using hne)]
  rw [heq]
  simp only [swapToFront]
  rw [Nat.zero_add]
  apply head?_set_zero
  intro hnil
  have : (data.set k (data.getD 0 default)).length = 0 := by rw [hnil]; rfl
  rw [List.length_set] at this
  exact hne (List.length_eq_zero.mp this)

/-- Witness for C7: a payload listing the everyone-role overwrite last
still stores it at index 0. -/
theorem fill_overwrites_everyone_first_witness :
    ∃ ow, (fillOverwrites 1 wOws7).head? = some ow
      ∧ ow.type = OwType.role ∧ ow.id = 1 :=
  fill_overwrites_everyone_first 1 wOws7 (by decide)

/-- Helper for C4: the last two stages of `permissions_for` (read-message
clearing, then voice-bit clearing for text channels) guarantee that a
result with the read bit off has every channel-scoped bit off. -/
theorem readClear_tail (y res : Nat) (t : Bool)
    (hres : res = if t then bitClear (if Nat.testBit y readMessagesBit then y
        else bitClear y allChannelPerms) voicePerms
      else if Nat.testBit y readMessagesBit then y else bitClear y allChannelPerms)
    (h : Nat.testBit res readMessagesBit = false)
    (b : Nat) (hb : Nat.testBit allChannelPerms b = true) :
    Nat.testBit res b = false := by
  subst hres
  by_cases hr : Nat.testBit y readMessagesBit = true
  · exfalso
    simp only [hr, if_true] at h
    cases t with
    | true =>
      simp only [if_true] at h
      rw [testBit_bitClear, hr] at h
      have hv : Nat.testBit voicePerms readMessagesBit = false := by decide
      rw [hv] at h
      cases h
    | false =>
      simp only [Bool.false_eq_true, if_false] at h
      rw [hr] at h
      cases h
  · rw [Bool.not_eq_true] at hr
    simp only [hr, Bool.false_eq_true, if_false]
    cases t with
    | true =>
      simp only [if_true]
      rw [testBit_bitClear, testBit_bitClear, hb]
      simp
    | false =>
      simp only [Bool.false_eq_true, if_false]
      rw [testBit_bitClear, hb]
      simp

/-- C4: whenever the permission set `permissions_for` returns has the
read-message bit off, every channel-scoped permission bit of the result
is off as well. -/
theorem no_read_means_no_channel_perms (ch : GuildChannelS) (m : MemberS)
    (h : Nat.testBit (permissions_for ch m) readMessagesBit = false) :
    ∀ b, Nat.testBit allChannelPerms b = true →
      Nat.testBit (permissions_for ch m) b = false := by
  intro b hb
  simp only [permissions_for] at h ⊢
  by_cases how : m.id = ch.guild.ownerId
  · rw [if_pos how] at h
    exact absurd h (by decide)
  · rw [if_neg how] at h ⊢
    by_cases had : Nat.testBit (m.roles.foldl (fun acc r => acc ||| r.permissions)
        ch.guild.defaultRole.permissions) administratorBit = true
    · rw [if_pos had] at h
      exact absurd h (by decide)
    · rw [if_neg had] at h ⊢
      exact readClear_tail _ _ ch.isTextChannel rfl h b hb

/-- Witness for C4: a member whose resolved set lacks read-message has
the send-message channel bit cleared as well. -/
theorem no_read_means_no_channel_perms_witness :
    Nat.testBit (permissions_for wCh4 wMem4) readMessagesBit = false
    ∧ Nat.testBit allChannelPerms sendMessagesBit = true
    ∧ Nat.testBit (permissions_for wCh4 wMem4) sendMessagesBit = false :=
  ⟨by decide, by decide,
   no_read_means_no_channel_perms wCh4 wMem4 (by decide) sendMessagesBit (by decide)⟩

/-- C8: below the owner and administrator bypasses, `permissions_for` is
exactly: accumulate every role overwrite the member's roles match (no
short-circuit), combine once as `(base AND NOT denies) OR allows`, then
apply the single member-specific overwrite after that combination (and
then the postprocessing stages); moreover any bit the member overwrite
allows is set after its application, whatever the role overwrites did. -/
theorem member_overwrite_after_roles (ch : GuildChannelS) (m : MemberS)
    (how : m.id ≠ ch.guild.ownerId)
    (had : Nat.testBit (combinedBase ch m) administratorBit = false) :
    permissions_for ch m =
      postProcess ch (applyMemberOverwrite ch m
        (applyRoleOverwrites ch m (combinedBase ch m)))
    ∧ (∀ ow, findMemberOverwrite ch m = some ow →
        ∀ b, Nat.testBit ow.allow b = true →
          Nat.testBit (applyMemberOverwrite ch m
            (applyRoleOverwrites ch m (combinedBase ch m))) b = true) := by
  constructor
  · simp only [permissions_for, postProcess, applyMemberOverwrite,
      applyRoleOverwrites, roleOverwriteAccum, findMemberOverwrite, combinedBase]
    rw [if_neg how]
    have had' : ¬ (Nat.testBit (m.roles.foldl (fun acc r => acc ||| r.permissions)
        ch.guild.defaultRole.permissions) administratorBit = true) := by
      simp only [combinedBase] at had
      rw [had]
      simp
    rw [if_neg had']
  · intro ow hfind b hball
    simp only [applyMemberOverwrite]
    rw [hfind]
    rw [testBit_handleOverwrite, hball]
    simp

/-- Witness for C8: a member holding one overridden role plus a
member-specific overwrite; the member overwrite re-allows the
send-message bit the role overwrite denied. -/
theorem member_overwrite_after_roles_witness :
    permissions_for wCh8 wMem8 =
      postProcess wCh8 (applyMemberOverwrite wCh8 wMem8
        (applyRoleOverwrites wCh8 wMem8 (combinedBase wCh8 wMem8)))
    ∧ Nat.testBit (applyMemberOverwrite wCh8 wMem8
        (applyRoleOverwrites wCh8 wMem8 (combinedBase wCh8 wMem8)))
        sendMessagesBit = true :=
  ⟨(member_overwrite_after_roles wCh8 wMem8 (by decide) (by decide)).1,
   (member_overwrite_after_roles wCh8 wMem8 (by decide) (by decide)).2
     ⟨5, 1 <<< sendMessagesBit, 1 <<< speakBit, OwType.member⟩ (by decide)
     sendMessagesBit (by decide)⟩

theorem takeRight_zero (l : List MsgS) : takeRight l 0 = [] := by
  simp [takeRight]

theorem takeRight_len (l : List MsgS) (n : Nat) (h : n ≤ l.length) :
    (takeRight l n).length = n := by
  simp [takeRight]
  omega

theorem takeRight_append_succ (l : List MsgS) (m : MsgS) (n : Nat)
    (h : n ≤ l.length) :
    takeRight (l ++ [m]) (n + 1) = takeRight l n ++ [m] := by
  unfold takeRight
  rw [List.length_append]
  have h1 : l.length + [m].length - (n + 1) = l.length - n := by
    simp
  rw [h1]
  exact List.drop_append_of_le_length (by omega)

theorem takeRight_one_getLastD :
    ∀ (l : List MsgS), l ≠ [] → takeRight l 1 = [l.getLastD default] := by
  intro l
  induction l with
  | nil => intro h; exact absurd rfl h
  | cons a t ih =>
    intro _
    cases t with
    | nil => rfl
    | cons b t2 =>
      have hrec := ih (by simp)
      have h1 : takeRight (a :: b :: t2) 1 = takeRight (b :: t2) 1 := by
        simp only [takeRight, List.length_cons]
        have h2 : t2.length + 1 + 1 - 1 = (t2.length + 1 - 1) + 1 := by omega
        rw [h2, List.drop_succ_cons]
      rw [h1, hrec]
      simp [List.getLastD_cons]

theorem deletedIds_append (a b : List HttpCall) :
    deletedIds (a ++ b) = deletedIds a ++ deletedIds b := by
  simp [deletedIds]

/-- Bridge between the purge loop as coded (flush of a full queue happens
when the next message is fetched) and the claim-side loop (flush happens
as soon as the hundredth match accumulates): from any loop state they
produce the same result, once a full pending queue is accounted for. -/
theorem purgeAux_bridge (cid : Nat) (check : MsgS → Bool) :
    ∀ (hist ret : List MsgS) (count : Nat) (calls : List HttpCall),
      count ≤ 100 →
      purgeAux cid check hist ret count calls =
        (if count = 100
         then purgeSpecAux cid check hist ret 0
           (calls ++ [HttpCall.bulkDelete cid ((takeRight ret 100).map MsgS.id)])
         else purgeSpecAux cid check hist ret count calls) := by
  intro hist
  induction hist with
  | nil =>
    intro ret count calls hle
    by_cases h100 : count = 100
    · subst h100
      rw [if_pos rfl]
      simp [purgeAux, purgeSpecAux]
    · rw [if_neg h100]
      rfl
  | cons msg rest ih =>
    intro ret count calls hle
    by_cases h100 : count = 100
    · subst h100
      rw [if_pos rfl]
      simp only [purgeAux, reduceIte]
      by_cases hc : check msg
      · rw [if_pos hc]
        have := ih (ret ++ [msg]) 1 (calls ++ [HttpCall.bulkDelete cid
          ((takeRight ret 100).map MsgS.id)]) (by omega)
        rw [if_neg (by omega)] at this
        rw [this]
        simp only [purgeSpecAux]
        rw [if_pos hc, if_neg (by omega)]
      · rw [if_neg hc]
        have := ih ret 0 (calls ++ [HttpCall.bulkDelete cid
          ((takeRight ret 100).map MsgS.id)]) (by omega)
        rw [if_neg (by omega)] at this
        rw [this]
        simp only [purgeSpecAux]
        rw [if_neg hc]
    · rw [if_neg h100]
      simp only [purgeAux, if_neg h100]
      by_cases hc : check msg
      · rw [if_pos hc]
        have := ih (ret ++ [msg]) (count + 1) calls (by omega)
        rw [this]
        simp only [purgeSpecAux]
        rw [if_pos hc]
      · rw [if_neg hc]
        have := ih ret count calls (by omega)
        rw [if_neg h100] at this
        rw [this]
        simp only [purgeSpecAux]
        rw [if_neg hc]

/-- The claim-side loop returns the incoming accumulator extended by all
matching scanned messages. -/
theorem purgeSpecAux_ret (cid : Nat) (check : MsgS → Bool) :
    ∀ (hist ret : List MsgS) (pending : Nat) (calls : List HttpCall),
      (purgeSpecAux cid check hist ret pending calls).1 =
        ret ++ hist.filter check := by
  intro hist
  induction hist with
  | nil =>
    intro ret pending calls
    by_cases h2 : pending ≥ 2
    · simp [purgeSpecAux, if_pos h2]
    · by_cases h1 : pending = 1
      · simp [purgeSpecAux, if_neg h2, if_pos h1]
      · simp [purgeSpecAux, if_neg h2, if_neg h1]
  | cons msg rest ih =>
    intro ret pending calls
    simp only [purgeSpecAux]
    by_cases hc : check msg
    · rw [if_pos hc]
      by_cases h100 : pending + 1 = 100
      · rw [if_pos h100, ih]
        simp [List.filter_cons, hc]
      · rw [if_neg h100, ih]
        simp [List.filter_cons, hc]
    · rw [if_neg hc, ih]
      simp [List.filter_cons, hc]

/-- The claim-side loop deletes exactly the pending queue plus every
matching scanned message, in order. -/
theorem purgeSpecAux_calls (cid : Nat) (check : MsgS → Bool) :
    ∀ (hist ret : List MsgS) (pending : Nat) (calls : List HttpCall),
      pending ≤ ret.length → pending ≤ 99 →
      deletedIds (purgeSpecAux cid check hist ret pending calls).2 =
        deletedIds calls ++ ((takeRight ret pending) ++ hist.filter check).map MsgS.id := by
  intro hist
  induction hist with
  | nil =>
    intro ret pending calls hlen h99
    by_cases h2 : pending ≥ 2
    · simp only [purgeSpecAux, if_pos h2]
      rw [deletedIds_append]
      simp [deletedIds, callIds]
    · by_cases h1 : pending = 1
      · subst h1
        simp only [purgeSpecAux, if_neg h2, reduceIte]
        rw [deletedIds_append]
        have hne : ret ≠ [] := by
          intro hnil
          rw [hnil] at hlen
          simp at hlen
        rw [takeRight_one_getLastD ret hne]
        simp [deletedIds, callIds]
      · have h0 : pending = 0 := by omega
        subst h0
        simp only [purgeSpecAux, if_neg h2, if_neg h1]
        rw [takeRight_zero]
        simp
  | cons msg rest ih =>
    intro ret pending calls hlen h99
    simp only [purgeSpecAux]
    by_cases hc : check msg
    · rw [if_pos hc]
      by_cases h100 : pending + 1 = 100
      · rw [if_pos h100]
        have h99e : pending = 99 := by omega
        subst h99e
        rw [ih (ret ++ [msg]) 0 _ (by simp) (by omega)]
        rw [takeRight_zero, deletedIds_append]
        have ht : takeRight (ret ++ [msg]) 100 = takeRight ret 99 ++ [msg] :=
          takeRight_append_succ ret msg 99 hlen
        rw [ht]
        simp [deletedIds, callIds, List.filter_cons, hc]
      · rw [if_neg h100]
        rw [ih (ret ++ [msg]) (pending + 1) _ (by simp; omega) (by omega)]
        rw [takeRight_append_succ ret msg pending hlen]
        simp [List.filter_cons, hc]
    · rw [if_neg hc]
      rw [ih ret pending _ hlen h99]
      simp [List.filter_cons, hc]

/-- Every request the claim-side loop issues is for the right channel,
and every bulk flush carries between 2 and 100 messages. -/
theorem purgeSpecAux_callsOk (cid : Nat) (check : MsgS → Bool) :
    ∀ (hist ret : List MsgS) (pending : Nat) (calls : List HttpCall),
      pending ≤ ret.length → pending ≤ 99 →
      (∀ c ∈ calls, purgeCallOk cid c) →
      ∀ c ∈ (purgeSpecAux cid check hist ret pending calls).2, purgeCallOk cid c := by
  intro hist
  induction hist with
  | nil =>
    intro ret pending calls hlen h99 hok c hc
    by_cases h2 : pending ≥ 2
    · simp only [purgeSpecAux, if_pos h2] at hc
      rcases List.mem_append.mp hc with hmem | hmem
      · exact hok c hmem
      · rcases List.mem_singleton.mp hmem with rfl
        refine ⟨rfl, ?_, ?_⟩
        · rw [List.length_map, takeRight_len ret pending hlen]
          omega
        · rw [List.length_map, takeRight_len ret pending hlen]
          omega
    · by_cases h1 : pending = 1
      · simp only [purgeSpecAux, if_neg h2, if_pos h1] at hc
        rcases List.mem_append.mp hc with hmem | hmem
        · exact hok c hmem
        · rcases List.mem_singleton.mp hmem with rfl
          exact rfl
      · simp only [purgeSpecAux, if_neg h2, if_neg h1] at hc
        exact hok c hc
  | cons msg rest ih =>
    intro ret pending calls hlen h99 hok c hc
    simp only [purgeSpecAux] at hc
    by_cases hcm : check msg
    · rw [if_pos hcm] at hc
      by_cases h100 : pending + 1 = 100
      · rw [if_pos h100] at hc
        have h99e : pending = 99 := by omega
        subst h99e
        have hlen2 : 100 ≤ (ret ++ [msg]).length := by
          rw [List.length_append]
          simp only [List.length_cons, List.length_nil]
          omega
        refine ih (ret ++ [msg]) 0 _ (by simp) (by omega) ?_ c hc
        intro c2 hc2
        rcases List.mem_append.mp hc2 with hmem | hmem
        · exact hok c2 hmem
        · rcases List.mem_singleton.mp hmem with rfl
          refine ⟨rfl, ?_, ?_⟩
          · rw [List.length_map, takeRight_len (ret ++ [msg]) 100 hlen2]
            omega
          · rw [List.length_map, takeRight_len (ret ++ [msg]) 100 hlen2]
      · rw [if_neg h100] at hc
        refine ih (ret ++ [msg]) (pending + 1) _ ?_ (by omega) hok c hc
        rw [List.length_append]
        simp only [List.length_cons, List.length_nil]
        omega
    · rw [if_neg hcm] at hc
      exact ih ret pending _ hlen h99 hok c hc

/-- C5: `purge` returns exactly the scanned messages the predicate
accepts; the purge loop as coded coincides with the claim-side loop
(flush of a full hundred as soon as it is pending, remainder flushed by
bulk delete when two or more, single delete when exactly one, nothing
when zero); the issued delete requests remove exactly the returned
messages in order; and every bulk request carries 2 to 100 messages on
the right channel. -/
theorem purge_correct (cid : Nat) (check : MsgS → Bool) (history : List MsgS) :
    (purge cid check history).1 = history.filter check
    ∧ purge cid check history = purgeSpec cid check history
    ∧ deletedIds (purge cid check history).2 = (history.filter check).map MsgS.id
    ∧ (∀ c ∈ (purge cid check history).2, purgeCallOk cid c) := by
  have hb := purgeAux_bridge cid check history [] 0 [] (by omega)
  rw [if_neg (by omega)] at hb
  have heq : purge cid check history = purgeSpec cid check history := hb
  refine ⟨?_, heq, ?_, ?_⟩
  · rw [heq]
    have := purgeSpecAux_ret cid check history [] 0 []
    simpa [purgeSpec] using this
  · rw [heq]
    have := purgeSpecAux_calls cid check history [] 0 [] (by simp) (by omega)
    simpa [purgeSpec, deletedIds, takeRight_zero] using this
  · rw [heq]
    exact purgeSpecAux_callsOk cid check history [] 0 [] (by simp) (by omega)
      (by intro c hc; cases hc)

/-- Witness for C5: purging four messages with an even-id predicate
returns the two matches and issues one bulk delete of exactly those. -/
theorem purge_correct_witness :
    (purge 1 (fun m => m.id % 2 == 0) wHist5).1 = [⟨2⟩, ⟨4⟩]
    ∧ deletedIds (purge 1 (fun m => m.id % 2 == 0) wHist5).2 = [2, 4]
    ∧ purgeCallOk 1 (HttpCall.bulkDelete 1 [2, 4]) := by
  have h := purge_correct 1 (fun m => m.id % 2 == 0) wHist5
  refine ⟨?_, ?_, ?_⟩
  · rw [h.1]
    decide
  · rw [h.2.2.1]
    decide
  · exact h.2.2.2 (HttpCall.bulkDelete 1 [2, 4]) (by decide)

/-- Shifting the enumeration start by one shifts every collected index by
one. -/
theorem enumFrom_filterMap_shift {α : Type} (p : α → Bool) :
    ∀ (l : List α) (k : Nat),
      (List.enumFrom (k + 1) l).filterMap
        (fun q => if p q.2 then some q.1 else none) =
      ((List.enumFrom k l).filterMap
        (fun q => if p q.2 then some q.1 else none)).map (· + 1) := by
  intro l
  induction l with
  | nil => intro k; rfl
  | cons a t ih =>
    intro k
    simp only [List.enumFrom_cons, List.filterMap_cons]
    by_cases hp : p a
    · simp only [if_pos hp, List.map_cons]
      rw [ih (k + 1)]
    · simp only [if_neg hp]
      rw [ih (k + 1)]

/-- Deleting a list of successor indices from a cons list deletes the
shifted indices from the tail. -/
theorem foldl_eraseIdx_shift {α : Type} :
    ∀ (is : List Nat) (a : α) (t : List α),
      ((is.map (· + 1)).foldl (fun acc i => acc.eraseIdx i) (a :: t)) =
        a :: is.foldl (fun acc i => acc.eraseIdx i) t := by
  intro is
  induction is with
  | nil => intro a t; rfl
  | cons i is ih =>
    intro a t
    simp only [List.map_cons, List.foldl_cons, List.eraseIdx_cons_succ]
    exact ih a (t.eraseIdx i)

/-- Collecting the indices whose elements satisfy `p` and then deleting
them from the same list in reversed order is exactly filtering `p`
out. -/
theorem removeIdxs_eq_filter {α : Type} (p : α → Bool) :
    ∀ (l : List α),
      ((l.enum.filterMap (fun q => if p q.2 then some q.1 else none)).reverse.foldl
        (fun acc i => acc.eraseIdx i) l) = l.filter (fun e => !(p e)) := by
  intro l
  induction l with
  | nil => rfl
  | cons a t ih =>
    have he : (a :: t).enum = (0, a) :: List.enumFrom 1 t := List.enum_cons
    have hshift := enumFrom_filterMap_shift p t 0
    have henum : List.enumFrom 0 t = t.enum := rfl
    rw [henum] at hshift
    rw [he, List.filterMap_cons]
    by_cases hp : p a
    · simp only [if_pos hp]
      rw [hshift, List.reverse_cons, ← List.map_reverse, List.foldl_append,
        foldl_eraseIdx_shift, ih]
      simp only [List.foldl_cons, List.foldl_nil, List.eraseIdx_cons_zero]
      rw [List.filter_cons_of_neg]
      simp [hp]
    · simp only [if_neg hp]
      rw [hshift, ← List.map_reverse, foldl_eraseIdx_shift, ih]
      rw [List.filter_cons_of_pos]
      simp [hp]

/-- C10: one dispatch pass removes exactly the matched, raising, or
cancelled message listeners from the pending set (a timed-out wait's
future is cancelled, so its entry is dropped the same way); every entry
that survives a pass is an uncancelled message listener whose predicate
did not match (or a reaction listener); and an elapsed timeout makes the
wait return an absent value instead of raising. -/
theorem listener_removal (l : List ListenerEntry) (msg : MsgS) :
    handle_message l msg = l.filter (fun e => !(listenerRemoves e msg))
    ∧ (∀ e ∈ handle_message l msg, e.type = WaitForTypeM.message →
        e.futureCancelled = false ∧ e.cond msg ≠ Except.ok true)
    ∧ waitForMessageReturn AwaitOutcome.timedOut = Except.ok none := by
  have hfilter : handle_message l msg = l.filter (fun e => !(listenerRemoves e msg)) := by
    simp only [handle_message]
    exact removeIdxs_eq_filter (fun e => listenerRemoves e msg) l
  refine ⟨hfilter, ?_, rfl⟩
  intro e he htype
  rw [hfilter] at he
  have hkeep := List.of_mem_filter he
  rw [Bool.not_eq_eq_eq_not, Bool.not_true] at hkeep
  simp only [listenerRemoves, htype, beq_self_eq_true, Bool.true_and,
    Bool.or_eq_false_iff] at hkeep
  refine ⟨hkeep.1, ?_⟩
  intro hcontra
  have := hkeep.2
  rw [hcontra] at this
  cases this

/-- Witness for C10: dispatching over a four-entry registry (a matching
listener, a cancelled one, a reaction listener, a non-matching one)
leaves exactly the reaction listener and the non-matching listener. -/
theorem listener_removal_witness :
    (handle_message [wEntryMatch, wEntryCancelled, wEntryReaction, wEntryNoMatch]
      ⟨2⟩).length = 2 := by
  have h := listener_removal [wEntryMatch, wEntryCancelled, wEntryReaction,
    wEntryNoMatch] ⟨2⟩
  rw [h.1]
  rfl

/-- The `_try_patch` sequence writes exactly the payload's present fields
and clears the cached slots. -/
theorem patchTail_eq (st : StateM) (d : UpdateData) (m : MessageM) :
    patchTail st d m = { m with
      editedTimestamp := d.editedTimestamp.getD m.editedTimestamp,
      author := (d.author.map st.tryInsertUser).getD m.author,
      pinned := d.pinned.getD m.pinned,
      mentionEveryone := d.mentionEveryone.getD m.mentionEveryone,
      tts := d.tts.getD m.tts,
      content := d.content.getD m.content,
      attachments := d.attachments.getD m.attachments,
      embeds := d.embeds.getD m.embeds,
      nonce := d.nonce.getD m.nonce,
      csRawMentions := none, csRawChannelMentions := none,
      csRawRoleMentions := none, csChannelMentions := none,
      csCleanContent := none, csSystemContent := none } := by
  obtain ⟨dm, dr, dc, de, da, dp, dme, dt, dco, dat, dem, dn⟩ := d
  cases de <;> cases da <;> cases dp <;> cases dme <;> cases dt <;> cases dco <;>
    cases dat <;> cases dem <;> cases dn <;> rfl

/-- The mentions dispatch writes the `mentionsAfter` value. -/
theorem mentionsStage_eq (st : StateM) (dm : Option (List DUser)) (x : MessageM) :
    mentionsStage st dm x = { x with mentions := mentionsAfter st x.guild dm x.mentions } := by
  cases dm with
  | none => rfl
  | some ms =>
    simp only [mentionsStage, handleMentions, mentionsAfter]
    cases hg : x.guild <;> rfl

/-- The mention-roles dispatch writes the `roleMentionsAfter` value. -/
theorem mentionRolesStage_eq (dr : Option (List Nat)) (x : MessageM) :
    mentionRolesStage dr x =
      { x with roleMentions := roleMentionsAfter x.guild dr x.roleMentions } := by
  cases dr with
  | none => rfl
  | some rs =>
    simp only [mentionRolesStage, handleMentionRoles, roleMentionsAfter]
    cases hg : x.guild <;> rfl

theorem mentionsAfter_idem (st : StateM) (g : Option GuildM)
    (dm : Option (List DUser)) (old : List DUser) :
    mentionsAfter st g dm (mentionsAfter st g dm old) =
      mentionsAfter st g dm old := by
  cases dm <;> rfl

theorem roleMentionsAfter_idem (g : Option GuildM) (dr : Option (List Nat))
    (old : List Nat) :
    roleMentionsAfter g dr (roleMentionsAfter g dr old) =
      roleMentionsAfter g dr old := by
  cases dr <;> rfl

theorem opt_getD_absorb {α : Type} (o : Option α) (x : α) :
    o.getD (o.getD x) = o.getD x := by
  cases o <;> rfl

/-- Field-level description of `_update` on payloads without a `call`
key: channel stored, mentions and role mentions recomputed from the
payload and the guild, scalar fields last-write-wins, caches cleared,
everything else untouched. -/
theorem msgUpdate_eq (st : StateM) (m : MessageM) (ch : Nat) (d : UpdateData)
    (h : d.call = none) :
    msgUpdate st m ch d = { m with
      channel := ch,
      mentions := mentionsAfter st m.guild d.mentions m.mentions,
      roleMentions := roleMentionsAfter m.guild d.mentionRoles m.roleMentions,
      editedTimestamp := d.editedTimestamp.getD m.editedTimestamp,
      author := (d.author.map st.tryInsertUser).getD m.author,
      pinned := d.pinned.getD m.pinned,
      mentionEveryone := d.mentionEveryone.getD m.mentionEveryone,
      tts := d.tts.getD m.tts,
      content := d.content.getD m.content,
      attachments := d.attachments.getD m.attachments,
      embeds := d.embeds.getD m.embeds,
      nonce := d.nonce.getD m.nonce,
      csRawMentions := none, csRawChannelMentions := none,
      csRawRoleMentions := none, csChannelMentions := none,
      csCleanContent := none, csSystemContent := none } := by
  simp only [msgUpdate, h]
  rw [mentionsStage_eq, mentionRolesStage_eq]
  show patchTail st d _ = _
  rw [patchTail_eq]
  rfl

/-- C6 counterexample: the update is not idempotent for every payload.  A
call-type message whose payload both patches the author and carries a
`call` entry naming the previous author as participant resolves the call
participants differently on the second application (the first application
replaced the author the resolution keys on). -/
theorem msgUpdate_not_idempotent :
    msgUpdate wState (msgUpdate wState wMsg6 0 wData6) 0 wData6 ≠
      msgUpdate wState wMsg6 0 wData6 := by
  decide

/-- C6 (amended): `_update` is idempotent for every payload without a
`call` entry — applying the same channel and payload a second time leaves
the message exactly as after the first application, with last-write-wins
on the fields present and absent fields untouched.  (A `call` payload
resolves participants against the pre-patch author, so combining it with
an author change breaks idempotence, as the counterexample shows.) -/
theorem msgUpdate_idem (st : StateM) (m : MessageM) (ch : Nat) (d : UpdateData)
    (h : d.call = none) :
    msgUpdate st (msgUpdate st m ch d) ch d = msgUpdate st m ch d := by
  rw [msgUpdate_eq st m ch d h, msgUpdate_eq st _ ch d h]
  simp only [mentionsAfter_idem, roleMentionsAfter_idem, opt_getD_absorb]

/-- Witness for C6 (amended): a payload patching mentions, roles, author,
and scalars (no `call` key) applied twice equals it applied once. -/
theorem msgUpdate_idem_witness :
    msgUpdate wState (msgUpdate wState wMsg6 0 wData6a) 0 wData6a =
      msgUpdate wState wMsg6 0 wData6a :=
  msgUpdate_idem wState wMsg6 0 wData6a rfl

end DSBot
